import Mathlib

/-!
Verification of the TinyDB backend of IVRE (`ivre/db/tiny.py`) against its
natural-language specification.

The Python code is shallowly embedded: TinyDB `Query` objects built by the
predicate constructors are embedded as executable Lean predicates over record
structures that follow the data model (a host record carries a `ports` array;
a passive record carries its key fields plus `count`/`firstseen`/`lastseen`).
Machine integers do not overflow in the modelled code paths, so Python `int`
is embedded as `Int`/`Nat`.
-/

/-- A port entry of a host record: protocol, port number (−1 is the host-level
pseudo-port sentinel), and state, as queried by `searchport`. -/
structure Port where
  protocol : String
  port : Int
  state_state : String
deriving DecidableEq, Repr

/-- A host record, restricted to the `ports` array that `searchport` queries.
Per the data model every host record carries a (possibly empty) ports array. -/
structure Host where
  ports : List Port
deriving DecidableEq, Repr

/-- The `port` argument of `searchport`: either a number or the literal
string "host". -/
inductive PortArg where
  | num (n : Int)
  | host
deriving DecidableEq, Repr

/-- Embedding of `TinyDB.searchport` (tiny.py, lines 551-570), evaluated on a
host record.  `q.ports.any c` holds iff some element of the ports array
satisfies `c`; `q.ports.all c` holds iff every element does. -/
def searchport (port : PortArg) (protocol : String) (state : String)
    (neg : Bool) (h : Host) : Bool :=
  match port with
  | .host =>
    if neg then h.ports.any (fun p => decide (p.port > 0))
    else h.ports.any (fun p => decide (p.port = -1))
  | .num n =>
    if neg then
      h.ports.any (fun p =>
        (decide (p.port = n) && decide (p.protocol = protocol))
          && decide (p.state_state ≠ state))
      || h.ports.all (fun p =>
        !(decide (p.port = n) && decide (p.protocol = protocol)))
    else
      h.ports.any (fun p =>
        (decide (p.port = n) && decide (p.protocol = protocol))
          && decide (p.state_state = state))

/-- The elementwise negation of the positive `searchport` predicate:
"every port fails the positive predicate, its state included".  This is NOT
what the code builds for `neg=True`; it is defined only to be compared with
`searchport`. -/
def searchportElemNeg (n : Int) (protocol state : String) (h : Host) : Bool :=
  h.ports.all (fun p =>
    !((decide (p.port = n) && decide (p.protocol = protocol))
        && decide (p.state_state = state)))

/-- The host of the C1 scenario: ports [(tcp,80,open),(tcp,22,closed)]. -/
def hostScenario : Host :=
  ⟨[⟨"tcp", 80, "open"⟩, ⟨"tcp", 22, "closed"⟩]⟩

/-- A host with two entries for (tcp,80) in different states; it separates the
negated `searchport` from the elementwise negation. -/
def hostDupPort : Host :=
  ⟨[⟨"tcp", 80, "closed"⟩, ⟨"tcp", 80, "open"⟩]⟩

/-- C1: on the scenario host, `searchport(80,'tcp','open')` matches,
`searchport(80,'tcp','closed')` does not, and `searchport(80,'tcp','open',
neg=True)` does not; in general the negated form is the three-way
disjunction (a port with that number and protocol in a different state
exists, or no port with that number and protocol exists), and it differs
from the elementwise negation on `hostDupPort`. -/
theorem searchport_neg_threeway :
    searchport (.num 80) "tcp" "open" false hostScenario = true
    ∧ searchport (.num 80) "tcp" "closed" false hostScenario = false
    ∧ searchport (.num 80) "tcp" "open" true hostScenario = false
    ∧ (∀ (h : Host) (n : Int) (proto st : String),
        searchport (.num n) proto st true h = true ↔
          ((∃ p ∈ h.ports, p.port = n ∧ p.protocol = proto ∧ p.state_state ≠ st)
            ∨ ∀ p ∈ h.ports, ¬(p.port = n ∧ p.protocol = proto)))
    ∧ searchport (.num 80) "tcp" "open" true hostDupPort = true
    ∧ searchportElemNeg 80 "tcp" "open" hostDupPort = false := by
  refine ⟨by decide, by decide, by decide, ?_, by decide, by decide⟩
  intro h n proto st
  simp only [searchport, if_true, decide_True, Bool.or_eq_true,
    List.any_eq_true, List.all_eq_true,
    Bool.and_eq_true, Bool.not_eq_true', Bool.and_eq_false_iff,
    decide_eq_true_eq, decide_eq_false_iff_not]
  constructor
  · rintro (⟨p, hp, ⟨h1, h2⟩, h3⟩ | hall)
    · exact Or.inl ⟨p, hp, h1, h2, h3⟩
    · refine Or.inr fun p hp hc => ?_
      rcases hall p hp with h1 | h2
      · exact h1 hc.1
      · exact h2 hc.2
  · rintro (⟨p, hp, h1, h2, h3⟩ | hall)
    · exact Or.inl ⟨p, hp, ⟨h1, h2⟩, h3⟩
    · refine Or.inr fun p hp => ?_
      by_cases h1 : p.port = n
      · exact Or.inr fun h2 => hall p hp ⟨h1, h2⟩
      · exact Or.inl h1

/-- The uniqueness key of a passive record: every field of the inserted
`spec` other than `count` and the derived `infos` block (tiny.py strips
`infos` and pops `count` before building the match condition). -/
structure PassiveKey where
  sensor : String
  recontype : String
  source : String
  value : String
  port : Option Int
deriving DecidableEq, Repr

/-- A stored passive record: key fields plus the volatile
`count`/`firstseen`/`lastseen` fields and the optional derived `infos`
block.  Timestamps are numeric epochs. -/
structure PRec where
  key : PassiveKey
  count : Int
  firstseen : Int
  lastseen : Int
  infos : Option String
deriving DecidableEq, Repr

/-- The `spec` argument of `insert_or_update` as presented by the caller:
key fields, an optional `count` (popped with default 1) and an optional
`infos` block (deleted before matching). -/
structure PassiveSpec where
  key : PassiveKey
  count : Option Int
  infos : Option String

/-- Embedding of `op_update` (tiny.py, lines 1853-1864): the TinyDB
transform folds `count` and tightens `firstseen`/`lastseen`; a stored
record always carries all three fields, so the `doc.get` defaults do not
fire on the modelled records. -/
def op_update (count : Int) (firstseen lastseen : Option Int) (doc : PRec) :
    PRec :=
  { doc with
    count := doc.count + count
    firstseen := match firstseen with
      | none => doc.firstseen
      | some f => min doc.firstseen f
    lastseen := match lastseen with
      | none => doc.lastseen
      | some l => max doc.lastseen l }

/-- Python's `lastseen or timestamp`: `None` and the falsy epoch `0` both
fall back to `timestamp`. -/
def pyOrTimestamp (lastseen : Option Int) (timestamp : Int) : Int :=
  match lastseen with
  | none => timestamp
  | some l => if l = 0 then timestamp else l

/-- `db.update(transform, doc_ids=[current.doc_id])` after
`get_one(spec_cond)`: the transform is applied to the first record
matching the predicate; every other record is untouched. -/
def updateFirst (f : PRec → PRec) (p : PRec → Bool) : List PRec → List PRec
  | [] => []
  | r :: rs => if p r then f r :: rs else r :: updateFirst f p rs

/-- Embedding of `TinyDBPassive.insert_or_update` (tiny.py, lines
1948-1985) as a transformer of the stored collection (list of records in
document-id order).  The second component reports whether the
`getinfos` resolver was invoked.  A `None` spec returns immediately; a
matching record is folded in place with `op_update`; otherwise a fresh
record is created (`firstseen = timestamp`, `lastseen = lastseen or
timestamp`) and only then is `getinfos` consulted for the `infos` block
(`orig.update(getinfos(orig)); doc['infos'] = orig['infos']`). -/
def insert_or_update (timestamp : Int) (spec : Option PassiveSpec)
    (getinfos : Option (PassiveSpec → Option String))
    (lastseen : Option Int) (state : List PRec) : List PRec × Bool :=
  match spec with
  | none => (state, false)
  | some s =>
    let count := s.count.getD 1
    let ls := pyOrTimestamp lastseen timestamp
    match state.find? (fun r => decide (r.key = s.key)) with
    | some _ =>
      (updateFirst (op_update count (some timestamp) (some ls))
        (fun r => decide (r.key = s.key)) state, false)
    | none =>
      let infos := match getinfos with
        | none => none
        | some g => (g s).or s.infos
      (state ++ [⟨s.key, count, timestamp, ls, infos⟩], getinfos.isSome)

/-- The spec used by the C2 scenario calls: fixed key, `count` 1, no
caller-provided infos. -/
def specOf (k : PassiveKey) : PassiveSpec := ⟨k, some 1, none⟩

/-- N repeated insertions of the same observation (count 1 each, no
explicit `lastseen`) at the timestamps in `ts`, in order. -/
def insertSeq (k : PassiveKey) (getinfos : Option (PassiveSpec → Option String))
    (ts : List Int) (state : List PRec) : List PRec :=
  ts.foldl (fun st t => (insert_or_update t (some (specOf k)) getinfos none st).1)
    state

/-- The key of the C2/C3 scenario observation
(sensor=S, recontype=DNS_ANSWER, value="example.com"). -/
def exampleKey : PassiveKey := ⟨"S", "DNS_ANSWER", "", "example.com", none⟩

/-- The `infos` block attached on creation: `getinfos(orig)` merged over the
caller's own `infos` field of the spec. -/
def infosNew (gi : Option (PassiveSpec → Option String)) (k : PassiveKey) :
    Option String :=
  match gi with
  | none => none
  | some g => (g (specOf k)).or (specOf k).infos

theorem find?_of_filter_singleton {p : PRec → Bool} :
    ∀ {l : List PRec} {r : PRec}, l.filter p = [r] → l.find? p = some r := by
  intro l
  induction l with
  | nil => intro r h; simp at h
  | cons x xs ih =>
    intro r h
    by_cases hp : p x
    · rw [List.filter_cons_of_pos hp, List.cons.injEq] at h
      rw [List.find?_cons_of_pos _ hp, h.1]
    · rw [List.filter_cons_of_neg (by simpa using hp)] at h
      rw [List.find?_cons_of_neg _ hp]
      exact ih h

theorem updateFirst_filter {f : PRec → PRec} {p : PRec → Bool}
    (hf : ∀ r, p r = true → p (f r) = true) :
    ∀ {l : List PRec} {r : PRec}, l.filter p = [r] →
      (updateFirst f p l).filter p = [f r] := by
  intro l
  induction l with
  | nil => intro r h; simp at h
  | cons x xs ih =>
    intro r h
    by_cases hp : p x
    · rw [List.filter_cons_of_pos hp, List.cons.injEq] at h
      rw [updateFirst, if_pos hp, List.filter_cons_of_pos (hf x hp), h.2, h.1]
    · rw [List.filter_cons_of_neg (by simpa using hp)] at h
      rw [updateFirst, if_neg hp, List.filter_cons_of_neg (by simpa using hp)]
      exact ih h

theorem insertStep_matched {k : PassiveKey}
    (gi : Option (PassiveSpec → Option String)) (t : Int) {state : List PRec}
    {r : PRec} (h : state.filter (fun x => decide (x.key = k)) = [r]) :
    (insert_or_update t (some (specOf k)) gi none state).1.filter
        (fun x => decide (x.key = k))
      = [op_update 1 (some t) (some t) r] := by
  have hf := find?_of_filter_singleton h
  simp only [insert_or_update, specOf, pyOrTimestamp, Option.getD_some]
  rw [hf]
  exact @updateFirst_filter (op_update 1 (some t) (some t))
    (fun x => decide (x.key = k)) (fun x hx => hx) state r h

theorem insertStep_new {k : PassiveKey}
    (gi : Option (PassiveSpec → Option String)) (t : Int) {state : List PRec}
    (h : ∀ r ∈ state, r.key ≠ k) :
    (insert_or_update t (some (specOf k)) gi none state).1
      = state ++ [⟨k, 1, t, t, infosNew gi k⟩] := by
  have hf : state.find? (fun x => decide (x.key = k)) = none := by
    rw [List.find?_eq_none]
    intro x hx
    simpa using h x hx
  simp only [insert_or_update, specOf, pyOrTimestamp, Option.getD_some]
  rw [hf]
  cases gi <;> simp [infosNew, specOf]

theorem insertSeq_filter {k : PassiveKey}
    (gi : Option (PassiveSpec → Option String)) :
    ∀ (ts : List Int) (state : List PRec) (r : PRec),
      state.filter (fun x => decide (x.key = k)) = [r] → r.key = k →
      (insertSeq k gi ts state).filter (fun x => decide (x.key = k))
        = [⟨k, r.count + ts.length, ts.foldl min r.firstseen,
            ts.foldl max r.lastseen, r.infos⟩] := by
  intro ts
  induction ts with
  | nil =>
    intro state r h hk
    obtain ⟨key, c, fs, ls, inf⟩ := r
    simp only [PRec.mk.injEq] at hk ⊢
    simpa [insertSeq, hk] using h
  | cons t ts ih =>
    intro state r h hk
    have hstep := insertStep_matched gi t h
    have hr' : (op_update 1 (some t) (some t) r).key = k := hk
    have := ih _ _ hstep hr'
    rw [show insertSeq k gi (t :: ts) state
        = insertSeq k gi ts (insert_or_update t (some (specOf k)) gi none state).1
      from rfl]
    rw [this]
    simp only [op_update, List.foldl_cons, List.length_cons, List.cons.injEq,
      PRec.mk.injEq, and_true, true_and]
    push_cast
    ring

/-- C2: starting from a collection with no record for the observation key,
N ≥ 1 insertions of the same observation (count 1 each) at timestamps
`t :: ts` leave exactly one matching record, whose count is N, whose
firstseen is the minimum of the timestamps (`ts.foldl min t`) and whose
lastseen is their maximum. -/
theorem insert_or_update_merge_counts :
    ∀ (k : PassiveKey) (gi : Option (PassiveSpec → Option String))
      (t : Int) (ts : List Int) (state : List PRec),
      (∀ r ∈ state, r.key ≠ k) →
      (insertSeq k gi (t :: ts) state).filter (fun x => decide (x.key = k))
        = [⟨k, 1 + ts.length, ts.foldl min t, ts.foldl max t,
            infosNew gi k⟩] := by
  intro k gi t ts state h
  have hstep := insertStep_new gi t h
  have hfilt : ((insert_or_update t (some (specOf k)) gi none state).1.filter
      (fun x => decide (x.key = k))) = [⟨k, 1, t, t, infosNew gi k⟩] := by
    rw [hstep, List.filter_append]
    have : state.filter (fun x => decide (x.key = k)) = [] := by
      rw [List.filter_eq_nil_iff]
      intro x hx
      simpa using h x hx
    simp [this]
  have := insertSeq_filter gi ts _ _ hfilt rfl
  rw [show insertSeq k gi (t :: ts) state
      = insertSeq k gi ts (insert_or_update t (some (specOf k)) gi none state).1
    from rfl]
  rw [this]

/-- Witness for C2: three observations at t=10,5,20 merge into one record
with count=3, firstseen=5, lastseen=20. -/
theorem insert_or_update_merge_counts_w :
    (insertSeq exampleKey none [10, 5, 20] []).filter
        (fun x => decide (x.key = exampleKey))
      = [⟨exampleKey, 3, 5, 20, none⟩] := by
  have h := insert_or_update_merge_counts exampleKey none 10 [5, 20] []
    (by intro r hr; simp at hr)
  simpa [infosNew] using h

/-- Counterexample for C3 as stated: creating a record with an explicit
`lastseen` (5) earlier than `timestamp` (10) stores
firstseen = 10 > lastseen = 5, so `firstseen ≤ lastseen` fails after
that call. -/
theorem insert_or_update_fs_le_ls_cex :
    (insert_or_update 10 (some (specOf exampleKey)) none (some 5) []).1
      = [⟨exampleKey, 1, 10, 5, none⟩]
    ∧ ((insert_or_update 10 (some (specOf exampleKey)) none (some 5) []).1.all
        (fun r => decide (r.firstseen ≤ r.lastseen))) = false :=
  ⟨by decide, by decide⟩

/-- One call to `insert_or_update`, with all its arguments. -/
structure MergeCall where
  timestamp : Int
  spec : Option PassiveSpec
  getinfos : Option (PassiveSpec → Option String)
  lastseen : Option Int

/-- A sequence of `insert_or_update` calls applied to the collection. -/
def runCalls (calls : List MergeCall) (state : List PRec) : List PRec :=
  calls.foldl
    (fun st c => (insert_or_update c.timestamp c.spec c.getinfos c.lastseen st).1)
    state

/-- The explicit `lastseen` argument of a call, when given and nonzero
(Python-truthy), is at least the call's timestamp. -/
def goodLastseen (c : MergeCall) : Prop :=
  ∀ l, c.lastseen = some l → l = 0 ∨ c.timestamp ≤ l

theorem mem_updateFirst {f : PRec → PRec} {p : PRec → Bool} :
    ∀ {l : List PRec} {r : PRec}, r ∈ updateFirst f p l →
      r ∈ l ∨ ∃ r₀ ∈ l, r = f r₀ := by
  intro l
  induction l with
  | nil => intro r h; simp [updateFirst] at h
  | cons x xs ih =>
    intro r h
    rw [updateFirst] at h
    by_cases hp : p x
    · rw [if_pos hp] at h
      rcases List.mem_cons.1 h with h | h
      · exact Or.inr ⟨x, List.mem_cons_self x xs, h⟩
      · exact Or.inl (List.mem_cons_of_mem x h)
    · rw [if_neg hp] at h
      rcases List.mem_cons.1 h with h | h
      · exact Or.inl (h ▸ List.mem_cons_self x xs)
      · rcases ih h with h | ⟨r₀, hr₀, hr⟩
        · exact Or.inl (List.mem_cons_of_mem x h)
        · exact Or.inr ⟨r₀, List.mem_cons_of_mem x hr₀, hr⟩

theorem insert_or_update_preserves_inv (t : Int) (sp : Option PassiveSpec)
    (gi : Option (PassiveSpec → Option String)) (ls : Option Int)
    (hgood : ∀ l, ls = some l → l = 0 ∨ t ≤ l) (state : List PRec)
    (hstate : ∀ r ∈ state, r.firstseen ≤ r.lastseen) :
    ∀ r ∈ (insert_or_update t sp gi ls state).1,
      r.firstseen ≤ r.lastseen := by
  have hts : t ≤ pyOrTimestamp ls t := by
    rcases ls with _ | l
    · exact le_refl t
    · rw [pyOrTimestamp]
      split
      · exact le_refl t
      · rcases hgood l rfl with h0 | h1
        · simp_all
        · exact h1
  rcases sp with _ | s
  · exact hstate
  · intro r hr
    simp only [insert_or_update] at hr
    rcases hfind : state.find? (fun x => decide (x.key = s.key)) with _ | r₀
    · rw [hfind] at hr
      simp only at hr
      rcases List.mem_append.1 hr with h | h
      · exact hstate r h
      · rcases List.mem_singleton.1 h with rfl
        exact hts
    · rw [hfind] at hr
      simp only at hr
      rcases mem_updateFirst hr with h | ⟨r₁, hr₁, rfl⟩
      · exact hstate r h
      · have h1 := hstate r₁ hr₁
        calc (op_update (s.count.getD 1) (some t)
                (some (pyOrTimestamp ls t)) r₁).firstseen
            ≤ r₁.firstseen := min_le_left _ _
          _ ≤ r₁.lastseen := h1
          _ ≤ _ := le_max_left _ _

/-- C3 amended: a fold never increases `firstseen` nor decreases
`lastseen` (unconditionally); and after any sequence of
`insert_or_update` calls in which every explicit `lastseen` argument,
when given and Python-truthy (nonzero), is at least the call's
timestamp, every stored record satisfies `firstseen ≤ lastseen`
(starting from a collection satisfying it). -/
theorem insert_or_update_bounds_amended :
    (∀ (count : Int) (fs ls : Option Int) (doc : PRec),
        (op_update count fs ls doc).firstseen ≤ doc.firstseen
        ∧ doc.lastseen ≤ (op_update count fs ls doc).lastseen)
    ∧ ∀ (calls : List MergeCall) (state : List PRec),
        (∀ c ∈ calls, goodLastseen c) →
        (∀ r ∈ state, r.firstseen ≤ r.lastseen) →
        ∀ r ∈ runCalls calls state, r.firstseen ≤ r.lastseen := by
  constructor
  · intro count fs ls doc
    constructor
    · rcases fs with _ | f
      · exact le_refl _
      · exact min_le_left _ _
    · rcases ls with _ | l
      · exact le_refl _
      · exact le_max_left _ _
  · intro calls
    induction calls with
    | nil => intro state _ hstate; exact hstate
    | cons c cs ih =>
      intro state hgood hstate
      exact ih _ (fun d hd => hgood d (List.mem_cons_of_mem c hd))
        (insert_or_update_preserves_inv c.timestamp c.spec c.getinfos
          c.lastseen (hgood c (List.mem_cons_self c cs)) state hstate)

/-- Witness for C3's amended theorem: a creation call with
`timestamp=10`, `lastseen=12` keeps `firstseen ≤ lastseen` on every
stored record. -/
theorem insert_or_update_bounds_amended_w :
    ((runCalls [⟨10, some (specOf exampleKey), none, some 12⟩] []).all
      (fun r => decide (r.firstseen ≤ r.lastseen))) = true := by
  have h := insert_or_update_bounds_amended.2
    [⟨10, some (specOf exampleKey), none, some 12⟩] []
    (by
      intro c hc
      rcases List.mem_singleton.1 hc with rfl
      intro l hl
      have hl' : some (12 : Int) = some l := hl
      injection hl' with h12
      right
      show (10 : Int) ≤ l
      omega)
    (by intro r hr; simp at hr)
  rw [List.all_eq_true]
  intro r hr
  simpa using h r hr

/-- C10: a `None` record returns immediately: the collection is exactly
unchanged and the resolver is not invoked, for every database state,
timestamp, resolver and `lastseen` argument. -/
theorem insert_or_update_none_noop :
    ∀ (timestamp : Int) (getinfos : Option (PassiveSpec → Option String))
      (lastseen : Option Int) (state : List PRec),
      insert_or_update timestamp none getinfos lastseen state
        = (state, false) :=
  fun _ _ _ _ => rfl

/-- A scan document of the `nmap_scans` collection: its identifier (the
`_id` key, already decoded to text) and its provenance payload. -/
structure ScanDoc where
  id : String
  payload : String
deriving DecidableEq, Repr

/-- Embedding of `TinyDBNmap.store_scan_doc` (tiny.py, lines 1832-1839):
if `db_scans.get(Query()._id == _id)` finds a document, a `ValueError` is
raised (embedded as `Except.error`) before anything is inserted;
otherwise the document is appended and its id returned.  The first
component is the resulting collection. -/
def store_scan_doc (scan : ScanDoc) (db_scans : List ScanDoc) :
    List ScanDoc × Except String String :=
  match db_scans.find? (fun d => decide (d.id = scan.id)) with
  | some _ => (db_scans, Except.error ("Duplicate entry for id " ++ scan.id))
  | none => (db_scans ++ [scan], Except.ok scan.id)

/-- C8: storing a scan document whose identifier is already present
raises a typed failure and leaves the collection (hence the previously
stored document) exactly unchanged. -/
theorem store_scan_doc_duplicate :
    ∀ (scan : ScanDoc) (db : List ScanDoc),
      (∃ d ∈ db, d.id = scan.id) →
      (store_scan_doc scan db).1 = db
      ∧ (store_scan_doc scan db).2
          = Except.error ("Duplicate entry for id " ++ scan.id) := by
  intro scan db h
  have hs : (db.find? (fun d => decide (d.id = scan.id))).isSome := by
    rw [List.find?_isSome]
    obtain ⟨d, hd, hid⟩ := h
    exact ⟨d, hd, by simpa using hid⟩
  rcases hfind : db.find? (fun d => decide (d.id = scan.id)) with _ | d
  · rw [hfind] at hs; simp at hs
  · constructor <;> simp only [store_scan_doc, hfind]

/-- Witness for C8: re-storing id "scan1" next to an existing "scan1"
document fails with the duplicate error and changes nothing. -/
theorem store_scan_doc_duplicate_w :
    (store_scan_doc ⟨"scan1", "new"⟩ [⟨"scan1", "old"⟩]).1
        = [⟨"scan1", "old"⟩]
    ∧ (store_scan_doc ⟨"scan1", "new"⟩ [⟨"scan1", "old"⟩]).2
        = Except.error ("Duplicate entry for id " ++ "scan1") :=
  store_scan_doc_duplicate ⟨"scan1", "new"⟩ [⟨"scan1", "old"⟩]
    ⟨⟨"scan1", "old"⟩, List.mem_singleton.2 rfl, rfl⟩

/-- Little-endian value of a byte list (base 256). -/
def bytesToNatLE : List Nat → Nat
  | [] => 0
  | b :: bs => b + 256 * bytesToNatLE bs

/-- The `k` little-endian base-256 digits of `n`. -/
def natToBytesLE : Nat → Nat → List Nat
  | 0, _ => []
  | k + 1, n => n % 256 :: natToBytesLE k (n / 256)

/-- Big-endian (network order, as `struct` uses) value of a byte list. -/
def bytesToNatBE (bs : List Nat) : Nat := bytesToNatLE bs.reverse

/-- The `k` big-endian base-256 digits of `n`:
`struct.pack` of an unsigned `k`-byte integer. -/
def natToBytesBE (k n : Nat) : List Nat := (natToBytesLE k n).reverse

theorem length_natToBytesLE : ∀ k n, (natToBytesLE k n).length = k := by
  intro k
  induction k with
  | zero => intro n; rfl
  | succ k ih => intro n; simp [natToBytesLE, ih]

theorem natToBytesLE_bytesToNatLE :
    ∀ {bs : List Nat}, (∀ x ∈ bs, x < 256) →
      natToBytesLE bs.length (bytesToNatLE bs) = bs := by
  intro bs
  induction bs with
  | nil => intro _; rfl
  | cons b tl ih =>
    intro h
    have hb : b < 256 := h b (List.mem_cons_self b tl)
    have htl := ih (fun x hx => h x (List.mem_cons_of_mem b hx))
    simp only [List.length_cons, natToBytesLE, bytesToNatLE, List.cons.injEq]
    refine ⟨by omega, ?_⟩
    rw [show (b + 256 * bytesToNatLE tl) / 256 = bytesToNatLE tl by omega]
    exact htl

theorem bytesToNatLE_lt : ∀ {bs : List Nat}, (∀ x ∈ bs, x < 256) →
    bytesToNatLE bs < 256 ^ bs.length := by
  intro bs
  induction bs with
  | nil => intro _; simp [bytesToNatLE]
  | cons b tl ih =>
    intro h
    have hb : b < 256 := h b (List.mem_cons_self b tl)
    have htl := ih (fun x hx => h x (List.mem_cons_of_mem b hx))
    simp only [bytesToNatLE, List.length_cons, pow_succ]
    calc b + 256 * bytesToNatLE tl
        < 256 + 256 * bytesToNatLE tl := by omega
      _ = 256 * (bytesToNatLE tl + 1) := by ring
      _ ≤ 256 * 256 ^ tl.length := by
          exact Nat.mul_le_mul_left 256 htl
      _ = 256 ^ tl.length * 256 := by ring

theorem bytesToNatLE_append (u v : List Nat) :
    bytesToNatLE (u ++ v) = bytesToNatLE u + 256 ^ u.length * bytesToNatLE v := by
  induction u with
  | nil => simp [bytesToNatLE]
  | cons b tl ih =>
    rw [List.cons_append,
      show bytesToNatLE (b :: (tl ++ v)) = b + 256 * bytesToNatLE (tl ++ v)
        from rfl,
      ih,
      show bytesToNatLE (b :: tl) = b + 256 * bytesToNatLE tl from rfl,
      List.length_cons, pow_succ]
    ring

theorem bytesToNatBE_append (u v : List Nat) :
    bytesToNatBE (u ++ v) = 256 ^ v.length * bytesToNatBE u + bytesToNatBE v := by
  simp only [bytesToNatBE, List.reverse_append, bytesToNatLE_append,
    List.length_reverse]
  ring

theorem natToBytesBE_bytesToNatBE {bs : List Nat} (h : ∀ x ∈ bs, x < 256) :
    natToBytesBE bs.length (bytesToNatBE bs) = bs := by
  rw [natToBytesBE, bytesToNatBE,
    show bs.length = bs.reverse.length from (List.length_reverse bs).symm,
    natToBytesLE_bytesToNatLE (fun x hx => h x (List.mem_reverse.1 hx)),
    List.reverse_reverse]

theorem bytesToNatBE_lt {bs : List Nat} (h : ∀ x ∈ bs, x < 256) :
    bytesToNatBE bs < 256 ^ bs.length := by
  rw [bytesToNatBE, show bs.length = bs.reverse.length
    from (List.length_reverse bs).symm]
  exact bytesToNatLE_lt (fun x hx => h x (List.mem_reverse.1 hx))

/-- Split a character list on a separator character. -/
def splitOnC (sep : Char) : List Char → List (List Char)
  | [] => [[]]
  | c :: cs =>
    match splitOnC sep cs with
    | [] => [[]]
    | g :: gs => if c = sep then [] :: g :: gs else (c :: g) :: gs

/-- Decimal value of a nonempty all-digit character list. -/
def decVal (cs : List Char) : Option Nat :=
  if cs.isEmpty then none
  else if cs.all Char.isDigit then
    some (cs.foldl (fun a c => a * 10 + (c.toNat - 48)) 0)
  else none

/-- Value of one hexadecimal digit. -/
def hexDigitVal (c : Char) : Option Nat :=
  if c.isDigit then some (c.toNat - 48)
  else if 'a' ≤ c ∧ c ≤ 'f' then some (c.toNat - 87)
  else if 'A' ≤ c ∧ c ≤ 'F' then some (c.toNat - 55)
  else none

/-- Sequence a list through an `Option`-valued function. -/
def mapOpt (f : α → Option β) : List α → Option (List β)
  | [] => some []
  | x :: xs =>
    match f x, mapOpt f xs with
    | some v, some vs => some (v :: vs)
    | _, _ => none

/-- Hexadecimal value of an IPv6 group: 1 to 4 hex digits. -/
def parseHexGroup (cs : List Char) : Option Nat :=
  if cs.isEmpty ∨ 4 < cs.length then none
  else (mapOpt hexDigitVal cs).map (List.foldl (fun a d => a * 16 + d) 0)

/-- Modelled from the spec: parsing of a valid dotted-quad IPv4 literal
(`utils.ip2bin`'s IPv4 case is not part of this file's source).  Returns
the 4 address bytes; the final guard enforces exactly 4 decimal parts,
each at most 255. -/
def parseIPv4L (l : List Char) : Option (List Nat) :=
  match mapOpt decVal (splitOnC '.' l) with
  | none => none
  | some ns =>
    if ns.length = 4 && ns.all (fun n => decide (n ≤ 255)) then some ns
    else none

/-- Split at the first `::`, if any. -/
def findDC : List Char → Option (List Char × List Char)
  | ':' :: ':' :: rest => some ([], rest)
  | c :: cs => (findDC cs).map (fun p => (c :: p.1, p.2))
  | [] => none

/-- Parse one side of an IPv6 literal into its 16-bit group values; when
`allowV4` is set, a final dotted group is parsed as an embedded IPv4
address contributing two groups. -/
def sideGroupsOf (allowV4 : Bool) : List (List Char) → Option (List Nat)
  | [] => some []
  | [last] =>
    if allowV4 && last.contains '.' then
      (parseIPv4L last).map (fun bs =>
        match bs with
        | [a, b, c, d] => [a * 256 + b, c * 256 + d]
        | _ => [])
    else (parseHexGroup last).map (fun v => [v])
  | g :: gs =>
    match parseHexGroup g, sideGroupsOf allowV4 gs with
    | some v, some vs => some (v :: vs)
    | _, _ => none

/-- Groups of one side: empty side means no groups. -/
def sideGroups (allowV4 : Bool) (l : List Char) : Option (List Nat) :=
  if l.isEmpty then some [] else sideGroupsOf allowV4 (splitOnC ':' l)

/-- Modelled from the spec: parsing of a valid IPv6 literal (with at most
one `::` compression and an optional embedded IPv4 suffix) into its 8
16-bit groups (`utils.ip2bin`'s IPv6 case is not part of this file's
source).  The final guard enforces exactly 8 groups, each below 2^16. -/
def parseIPv6L (l : List Char) : Option (List Nat) :=
  let raw : Option (List Nat) :=
    match findDC l with
    | some (left, right) =>
      if (findDC right).isSome then none
      else
        match sideGroups false left, sideGroups true right with
        | some lg, some rg =>
          if lg.length + rg.length ≤ 7 then
            some (lg ++ List.replicate (8 - lg.length - rg.length) 0 ++ rg)
          else none
        | _, _ => none
    | none => sideGroups true l
  match raw with
  | none => none
  | some gs =>
    if gs.length = 8 && gs.all (fun g => decide (g < 65536)) then some gs
    else none

/-- Modelled from the spec: `utils.ip2bin` — the 16-byte network-order
binary form of a valid IPv4 or IPv6 text address, an IPv4 address being
embedded in the IPv4-mapped range `::ffff:0:0/96`; invalid text fails
(typed decoding error, embedded as `none`). -/
def ip2bin (s : String) : Option (List Nat) :=
  match parseIPv4L s.data with
  | some bs => some (List.replicate 10 0 ++ [255, 255] ++ bs)
  | none =>
    (parseIPv6L s.data).map
      (fun gs => gs.flatMap (fun g => [g / 256, g % 256]))

/-- Decimal text of a number. -/
def natDecStr (n : Nat) : String := String.mk (Nat.toDigits 10 n)

/-- Lowercase hexadecimal text of a number, no leading zeros. -/
def natHexStr (n : Nat) : String := String.mk (Nat.toDigits 16 n)

/-- 16-bit groups of a 16-byte value. -/
def pairUp : List Nat → List Nat
  | a :: b :: rest => (a * 256 + b) :: pairUp rest
  | _ => []

/-- Leftmost longest run (length ≥ 2) of zero groups: (start, length). -/
def bestZeroRun (gs : List Nat) : Option (Nat × Nat) :=
  (List.range gs.length).foldl
    (fun best i =>
      let len := ((gs.drop i).takeWhile (fun g => decide (g = 0))).length
      if 2 ≤ len then
        match best with
        | none => some (i, len)
        | some (bs, bl) => if bl < len then some (i, len) else some (bs, bl)
      else best)
    none

/-- Canonical IPv6 text of a group list: lowercase hex groups joined by
`:` with the leftmost longest zero run (length ≥ 2) compressed to `::`. -/
def v6str (gs : List Nat) : String :=
  match bestZeroRun gs with
  | none => String.intercalate ":" (gs.map natHexStr)
  | some (i, len) =>
    String.intercalate ":" ((gs.take i).map natHexStr) ++ "::"
      ++ String.intercalate ":" ((gs.drop (i + len)).map natHexStr)

/-- Modelled from the spec: `utils.bin2ip` — the canonical text of a
16-byte network-order binary address: a dotted quad for the IPv4-mapped
range, canonical IPv6 text otherwise. -/
def bin2ip (b : List Nat) : String :=
  if b.take 12 = List.replicate 10 0 ++ [255, 255] then
    String.intercalate "." ((b.drop 12).map natDecStr)
  else v6str (pairUp b)

/-- The canonical textual form of an address literal: what the codec
prints for the address the literal denotes. -/
def canonicalIP (s : String) : Option String := (ip2bin s).map bin2ip

/-- The `addr` argument of `ip2internal`: a Python `int` or a text
address. -/
inductive AddrInput where
  | int (n : Int)
  | text (s : String)

/-- Embedding of `TinyDB.ip2internal` (tiny.py, lines 278-285): an
integer is returned unchanged; otherwise `struct.unpack('!QQ',
utils.ip2bin(addr))` yields the two 64-bit halves `val1`, `val2` and the
result is `(val1 << 64) + val2`.  Decoding failure is `none`. -/
def ip2internal : AddrInput → Option Int
  | .int n => some n
  | .text s =>
    (ip2bin s).map (fun b =>
      ((bytesToNatBE (b.take 8)) * 2 ^ 64 + bytesToNatBE (b.drop 8) : Nat))

/-- Embedding of `TinyDB.internal2ip` (tiny.py, lines 287-290):
`utils.bin2ip(struct.pack('!QQ', addr >> 64, addr & 0xffffffffffffffff))`.
`struct.pack` fails (embedded as `none`) unless both halves fit an
unsigned 64-bit integer, i.e. unless `0 ≤ addr < 2^128`. -/
def internal2ip (addr : Int) : Option String :=
  if 0 ≤ addr ∧ addr < 2 ^ 128 then
    some (bin2ip (natToBytesBE 8 (addr.toNat / 2 ^ 64)
      ++ natToBytesBE 8 (addr.toNat % 2 ^ 64)))
  else none

theorem length_flatMap_two (gs : List Nat) :
    (gs.flatMap (fun g => [g / 256, g % 256])).length = 2 * gs.length := by
  induction gs with
  | nil => rfl
  | cons g tl ih => simp [List.flatMap_cons, ih]; omega

theorem mapOpt_mem {f : α → Option β} :
    ∀ {l : List α} {l' : List β}, mapOpt f l = some l' →
      ∀ y ∈ l', ∃ x ∈ l, f x = some y := by
  intro l
  induction l with
  | nil =>
    intro l' h y hy
    simp only [mapOpt, Option.some.injEq] at h
    subst h
    simp at hy
  | cons x xs ih =>
    intro l' h y hy
    simp only [mapOpt] at h
    rcases hx : f x with _ | v
    · rw [hx] at h; simp at h
    · rw [hx] at h
      rcases hxs : mapOpt f xs with _ | vs
      · rw [hxs] at h; simp at h
      · rw [hxs] at h
        simp only [Option.some.injEq] at h
        subst h
        rcases List.mem_cons.1 hy with rfl | hy
        · exact ⟨x, List.mem_cons_self x xs, hx⟩
        · obtain ⟨x', hx', hfx'⟩ := ih hxs y hy
          exact ⟨x', List.mem_cons_of_mem x hx', hfx'⟩

/-- Every byte list `ip2bin` produces has 16 entries, each below 256. -/
theorem ip2bin_valid {s : String} {b : List Nat} (h : ip2bin s = some b) :
    b.length = 16 ∧ ∀ x ∈ b, x < 256 := by
  rw [ip2bin] at h
  rcases h4 : parseIPv4L s.data with _ | bs
  · rw [h4] at h
    simp only [Option.map_eq_some'] at h
    obtain ⟨gs, hgs, rfl⟩ := h
    rw [parseIPv6L] at hgs
    rcases hraw : (match findDC s.data with
      | some (left, right) =>
        if (findDC right).isSome = true then none
        else
          match sideGroups false left, sideGroups true right with
          | some lg, some rg =>
            if lg.length + rg.length ≤ 7 then
              some (lg ++ List.replicate (8 - lg.length - rg.length) 0 ++ rg)
            else none
          | _, _ => none
      | none => sideGroups true s.data) with _ | gs'
    · rw [hraw] at hgs; simp at hgs
    · rw [hraw] at hgs
      simp only at hgs
      split at hgs
      · next hcond =>
        simp only [Option.some.injEq] at hgs
        subst hgs
        rw [Bool.and_eq_true, decide_eq_true_eq, List.all_eq_true] at hcond
        constructor
        · rw [length_flatMap_two, hcond.1]
        · intro x hx
          rw [List.mem_flatMap] at hx
          obtain ⟨g, hg, hxg⟩ := hx
          have hglt : g < 65536 := by
            have := hcond.2 g hg
            simpa using this
          rcases List.mem_cons.1 hxg with rfl | hxg
          · omega
          · rcases List.mem_singleton.1 hxg with rfl
            exact Nat.mod_lt _ (by norm_num)
      · exact absurd hgs (by simp)
  · rw [h4] at h
    simp only [Option.some.injEq] at h
    subst h
    rw [parseIPv4L] at h4
    rcases hm : mapOpt decVal (splitOnC '.' s.data) with _ | ns
    · rw [hm] at h4; simp at h4
    · rw [hm] at h4
      simp only at h4
      split at h4
      · next hcond =>
        simp only [Option.some.injEq] at h4
        subst h4
        rw [Bool.and_eq_true, decide_eq_true_eq, List.all_eq_true] at hcond
        constructor
        · simp [hcond.1]
        · intro x hx
          simp only [List.append_assoc, List.mem_append] at hx
          rcases hx with hx | hx | hx
          · have := List.eq_of_mem_replicate hx
            omega
          · have : x = 255 := by simpa using hx
            omega
          · have := hcond.2 x hx
            simp only [decide_eq_true_eq] at this
            omega
      · exact absurd h4 (by simp)

/-- C4: for every valid IPv4/IPv6 address text (every text `ip2bin`
decodes), `ip2internal` is defined (total on valid literals) and
`internal2ip` maps its 128-bit integer result back to the canonical
textual form of the address. -/
theorem ip_roundtrip :
    ∀ (s : String) (b : List Nat), ip2bin s = some b →
      ∃ n : Int, ip2internal (AddrInput.text s) = some n
        ∧ internal2ip n = canonicalIP s
        ∧ internal2ip n = some (bin2ip b) := by
  intro s b h
  obtain ⟨hlen, hlt⟩ := ip2bin_valid h
  have hlen1 : (b.take 8).length = 8 := by rw [List.length_take, hlen]; omega
  have hlen2 : (b.drop 8).length = 8 := by rw [List.length_drop, hlen]
  have hlt1 : ∀ x ∈ b.take 8, x < 256 :=
    fun x hx => hlt x (List.mem_of_mem_take hx)
  have hlt2 : ∀ x ∈ b.drop 8, x < 256 :=
    fun x hx => hlt x (List.mem_of_mem_drop hx)
  have h256 : (256 : Nat) ^ 8 = 2 ^ 64 := by norm_num
  have hv1 : bytesToNatBE (b.take 8) < 2 ^ 64 := by
    have h1 := bytesToNatBE_lt hlt1
    rw [hlen1, h256] at h1
    exact h1
  have hv2 : bytesToNatBE (b.drop 8) < 2 ^ 64 := by
    have h1 := bytesToNatBE_lt hlt2
    rw [hlen2, h256] at h1
    exact h1
  have hb : internal2ip
      ((bytesToNatBE (b.take 8) * 2 ^ 64 + bytesToNatBE (b.drop 8) : Nat) : Int)
      = some (bin2ip b) := by
    have e64 : (2 : Nat) ^ 64 = 18446744073709551616 := by norm_num
    have hn : (bytesToNatBE (b.take 8) * 2 ^ 64 + bytesToNatBE (b.drop 8))
        < 2 ^ 128 := by
      have e128 : (2 : Nat) ^ 128
          = 340282366920938463463374607431768211456 := by norm_num
      rw [e64] at hv1 hv2 ⊢
      rw [e128]
      omega
    rw [internal2ip, if_pos]
    · congr 1
      rw [Int.toNat_natCast]
      have hdiv : (bytesToNatBE (b.take 8) * 2 ^ 64
          + bytesToNatBE (b.drop 8)) / 2 ^ 64 = bytesToNatBE (b.take 8) := by
        rw [e64] at hv2 ⊢
        omega
      have hmod : (bytesToNatBE (b.take 8) * 2 ^ 64
          + bytesToNatBE (b.drop 8)) % 2 ^ 64 = bytesToNatBE (b.drop 8) := by
        rw [e64] at hv2 ⊢
        omega
      rw [hdiv, hmod]
      have ht := natToBytesBE_bytesToNatBE hlt1
      rw [hlen1] at ht
      have hd := natToBytesBE_bytesToNatBE hlt2
      rw [hlen2] at hd
      rw [ht, hd, List.take_append_drop]
    · constructor
      · exact Int.natCast_nonneg _
      · exact_mod_cast hn
  refine ⟨((bytesToNatBE (b.take 8)) * 2 ^ 64 + bytesToNatBE (b.drop 8) : Nat),
    ?_, ?_, hb⟩
  · rw [ip2internal, h, Option.map_some']
  · rw [hb, canonicalIP, h, Option.map_some']

/-- Witness for C4: the round trip at the literal "192.0.2.1". -/
theorem ip_roundtrip_w :
    ip2bin "192.0.2.1"
        = some [0, 0, 0, 0, 0, 0, 0, 0, 0, 0, 255, 255, 192, 0, 2, 1]
    ∧ ∃ n : Int, ip2internal (AddrInput.text "192.0.2.1") = some n
        ∧ internal2ip n = canonicalIP "192.0.2.1"
        ∧ internal2ip n
            = some (bin2ip [0, 0, 0, 0, 0, 0, 0, 0, 0, 0, 255, 255,
                192, 0, 2, 1]) :=
  ⟨rfl, ip_roundtrip "192.0.2.1" _ rfl⟩

/-- C9: `ip2internal` returns any integer input unchanged, so on every
valid input (text or integer) the address codec is idempotent at its
public entry point. -/
theorem ip2internal_idempotent :
    (∀ n : Int, ip2internal (AddrInput.int n) = some n)
    ∧ ∀ (a : AddrInput) (r : Int), ip2internal a = some r →
        ip2internal (AddrInput.int r) = some r :=
  ⟨fun _ => rfl, fun _ _ _ => rfl⟩

/-- Witness for C9: idempotence at the integer 42 and at the parsed
value of "192.0.2.1". -/
theorem ip2internal_idempotent_w :
    ip2internal (AddrInput.int 42) = some 42
    ∧ ip2internal (AddrInput.int 281473902969345) = some 281473902969345 :=
  ⟨ip2internal_idempotent.1 42,
    ip2internal_idempotent.2 (AddrInput.text "192.0.2.1") 281473902969345 rfl⟩

/-- Stable insertion into a list: `x` goes before the first element `y`
with `le x y`; a stable sort with comparator-induced `le` places a
later-inserted element after every tied earlier one. -/
def insertSorted (le : α → α → Bool) (x : α) : List α → List α
  | [] => [x]
  | y :: ys => if le x y then x :: y :: ys else y :: insertSorted le x ys

/-- Stable insertion sort: the model of Python's stable `sorted`
(Timsort) with a boolean `le` relation; elements comparing tied keep
their original relative order. -/
def insSortBy (le : α → α → Bool) : List α → List α
  | [] => []
  | x :: xs => insertSorted le x (insSortBy le xs)

theorem mem_insertSorted {le : α → α → Bool} {x a : α} :
    ∀ {l : List α}, a ∈ insertSorted le x l → a = x ∨ a ∈ l := by
  intro l
  induction l with
  | nil => intro h; simpa [insertSorted] using h
  | cons y ys ih =>
    intro h
    rw [insertSorted] at h
    by_cases hle : le x y
    · rw [if_pos hle] at h
      rcases List.mem_cons.1 h with rfl | h
      · exact Or.inl rfl
      · exact Or.inr h
    · rw [if_neg hle] at h
      rcases List.mem_cons.1 h with rfl | h
      · exact Or.inr (List.mem_cons_self a ys)
      · rcases ih h with h | h
        · exact Or.inl h
        · exact Or.inr (List.mem_cons_of_mem y h)

theorem mem_insSortBy {le : α → α → Bool} {a : α} :
    ∀ {l : List α}, a ∈ insSortBy le l → a ∈ l := by
  intro l
  induction l with
  | nil => intro h; simpa [insSortBy] using h
  | cons x xs ih =>
    intro h
    rcases mem_insertSorted h with rfl | h
    · exact List.mem_cons_self a xs
    · exact List.mem_cons_of_mem x (ih h)

theorem length_insertSorted (le : α → α → Bool) (x : α) :
    ∀ (l : List α), (insertSorted le x l).length = l.length + 1 := by
  intro l
  induction l with
  | nil => rfl
  | cons y ys ih =>
    rw [insertSorted]
    by_cases hle : le x y
    · rw [if_pos hle]; rfl
    · rw [if_neg hle, List.length_cons, ih, List.length_cons]

theorem length_insSortBy (le : α → α → Bool) :
    ∀ (l : List α), (insSortBy le l).length = l.length := by
  intro l
  induction l with
  | nil => rfl
  | cons x xs ih =>
    rw [insSortBy, length_insertSorted, ih, List.length_cons]

theorem pairwise_insertSorted {le : α → α → Bool} {P : α → α → Prop} {x : α} :
    ∀ {l : List α}, List.Pairwise P l →
      (∀ y ∈ l, P x y) →
      (∀ y ∈ l, le x y = false → P y x) →
      List.Pairwise P (insertSorted le x l) := by
  intro l
  induction l with
  | nil => intro _ _ _; simpa [insertSorted] using List.pairwise_singleton P x
  | cons y ys ih =>
    intro hl h1 h2
    rcases List.pairwise_cons.1 hl with ⟨hy, hys⟩
    rw [insertSorted]
    by_cases hle : le x y
    · rw [if_pos hle]
      exact List.pairwise_cons.2 ⟨h1, hl⟩
    · rw [if_neg hle]
      refine List.pairwise_cons.2 ⟨?_, ?_⟩
      · intro a ha
        rcases mem_insertSorted ha with rfl | ha
        · exact h2 y (List.mem_cons_self y ys) (by simpa using hle)
        · exact hy a ha
      · exact ih hys
          (fun z hz => h1 z (List.mem_cons_of_mem y hz))
          (fun z hz => h2 z (List.mem_cons_of_mem y hz))

theorem sorted_insertSorted {le : α → α → Bool}
    (htot : ∀ a b, le a b ∨ le b a)
    (htrans : ∀ a b c, le a b = true → le b c = true → le a c = true)
    (x : α) :
    ∀ {l : List α}, List.Pairwise (fun a b => le a b = true) l →
      List.Pairwise (fun a b => le a b = true) (insertSorted le x l) := by
  intro l
  induction l with
  | nil =>
    intro _
    simpa [insertSorted] using List.pairwise_singleton (fun a b => le a b = true) x
  | cons y ys ih =>
    intro hl
    rcases List.pairwise_cons.1 hl with ⟨hy, hys⟩
    rw [insertSorted]
    by_cases hle : le x y
    · rw [if_pos hle]
      refine List.pairwise_cons.2 ⟨?_, hl⟩
      intro a ha
      rcases List.mem_cons.1 ha with rfl | ha
      · exact hle
      · exact htrans x y a hle (hy a ha)
    · rw [if_neg hle]
      refine List.pairwise_cons.2 ⟨?_, ih hys⟩
      intro a ha
      rcases mem_insertSorted ha with rfl | ha
      · rcases htot a y with h | h
        · exact absurd h hle
        · exact h
      · exact hy a ha

theorem sorted_insSortBy {le : α → α → Bool}
    (htot : ∀ a b, le a b ∨ le b a)
    (htrans : ∀ a b c, le a b = true → le b c = true → le a c = true) :
    ∀ (l : List α),
      List.Pairwise (fun a b => le a b = true) (insSortBy le l) := by
  intro l
  induction l with
  | nil => exact List.Pairwise.nil
  | cons x xs ih => exact sorted_insertSorted htot htrans x ih

/-- `Counter` update: `counter[v] += c`, with Python-3.7 dict semantics —
a new key is appended in first-seen order. -/
def counterAdd [DecidableEq V] (acc : List (V × Int)) (v : V) (c : Int) :
    List (V × Int) :=
  if acc.any (fun p => decide (p.1 = v)) then
    acc.map (fun p => if p.1 = v then (p.1, p.2 + c) else p)
  else acc ++ [(v, c)]

/-- `collections.Counter(stream)`: frequency table of a value stream in
first-seen order. -/
def counterOfList [DecidableEq V] (l : List V) : List (V × Int) :=
  l.foldl (fun acc v => counterAdd acc v 1) []

/-- The weighted counter of `TinyDBPassive.topvalues` with
`distinct=False`: `res[val] += count` over (value, count) pairs. -/
def counterWeighted [DecidableEq V] (l : List (V × Int)) : List (V × Int) :=
  l.foldl (fun acc p => counterAdd acc p.1 p.2) []

/-- `Counter.most_common(n)`: entries sorted by count, highest first
(stable: ties keep first-seen order), truncated to `n`. -/
def mostCommon (c : List (V × Int)) (n : Nat) : List (V × Int) :=
  (insSortBy (fun a b => decide (b.2 ≤ a.2)) c).take n

/-- The tail of `TinyDBActive.topvalues` (tiny.py, lines 1689-1694) and
of the `distinct=True` branch of `TinyDBPassive.topvalues` (lines
2046-2052): the extractor's value stream is counted, ranked by
`most_common(topnbr)` and sent through the output post-processor. -/
def topvaluesRank [DecidableEq V] (outputproc : V → W) (stream : List V)
    (topnbr : Nat) : List (W × Int) :=
  (mostCommon (counterOfList stream) topnbr).map
    (fun p => (outputproc p.1, p.2))

/-- The `distinct=False` branch of `TinyDBPassive.topvalues` (tiny.py,
lines 2053-2059): counts are summed from each event's own `count`
field before ranking. -/
def topvaluesRankWeighted [DecidableEq V] (outputproc : V → W)
    (stream : List (V × Int)) (topnbr : Nat) : List (W × Int) :=
  (mostCommon (counterWeighted stream) topnbr).map
    (fun p => (outputproc p.1, p.2))

theorem mostCommon_spec (c : List (V × Int)) (n : Nat) :
    (mostCommon c n).length ≤ n
    ∧ List.Pairwise (fun a b => b.2 ≤ a.2) (mostCommon c n) := by
  constructor
  · rw [mostCommon]
    exact List.length_take_le n _
  · rw [mostCommon]
    refine List.Pairwise.sublist (List.take_sublist n _) ?_
    have h := @sorted_insSortBy (V × Int) (fun a b => decide (b.2 ≤ a.2))
      (fun a b => by
        rcases le_total b.2 a.2 with h | h
        · exact Or.inl (by simpa using h)
        · exact Or.inr (by simpa using h))
      (fun a b d hab hbd => by
        simp only [decide_eq_true_eq] at hab hbd ⊢
        exact le_trans hbd hab) c
    exact h.imp (by intro a b hab; simpa using hab)

/-- C6: for every extracted value stream and every K, `topvalues`
returns at most K entries and the counts are non-increasing, in the
distinct branch (host and passive) and in the weighted passive
branch. -/
theorem topvalues_bounds :
    ∀ (V W : Type) (inst : DecidableEq V) (outputproc : V → W)
      (stream : List V) (wstream : List (V × Int)) (K : Nat),
      (topvaluesRank outputproc stream K).length ≤ K
      ∧ List.Pairwise (fun a b => b.2 ≤ a.2)
          (topvaluesRank outputproc stream K)
      ∧ (topvaluesRankWeighted outputproc wstream K).length ≤ K
      ∧ List.Pairwise (fun a b => b.2 ≤ a.2)
          (topvaluesRankWeighted outputproc wstream K) := by
  intro V W inst outputproc stream wstream K
  obtain ⟨hl1, hp1⟩ := mostCommon_spec (counterOfList stream) K
  obtain ⟨hl2, hp2⟩ := mostCommon_spec (counterWeighted wstream) K
  refine ⟨?_, ?_, ?_, ?_⟩
  · rw [topvaluesRank, List.length_map]
    exact hl1
  · rw [topvaluesRank]
    rw [List.pairwise_map]
    exact hp1.imp (fun h => h)
  · rw [topvaluesRankWeighted, List.length_map]
    exact hl2
  · rw [topvaluesRankWeighted]
    rw [List.pairwise_map]
    exact hp2.imp (fun h => h)

/-- A TinyDB document value as seen by the sort comparator of
`TinyDB.get`: a stored null, an integer, a string, or a nested mapping
(modelled as a chain of key/value entries in insertion order). -/
inductive TVal where
  | tnull
  | tint (n : Int)
  | tstr (s : String)
  | tonil
  | tocons (k : String) (v : TVal) (rest : TVal)
deriving DecidableEq, Repr

/-- `dict.get(k)` on a mapping: a stored Python `None` and a missing key
are both `None` to the caller, hence both `none` here.  On a non-mapping
the comparator's `(f or {}).get(sk)` yields `None` for falsy `f`; a
truthy non-mapping would raise `AttributeError` in Python and is outside
the comparator's contract (modelled as `none`). -/
def objGet (k : String) : TVal → Option TVal
  | .tocons k' v rest =>
    if k' = k then
      match v with
      | .tnull => none
      | _ => some v
    else objGet k rest
  | _ => none

/-- One step `f = (f or {}).get(sk)` of the comparator's path walk. -/
def getSeg (f : Option TVal) (sk : String) : Option TVal :=
  match f with
  | none => none
  | some v => objGet sk v

/-- The comparator's walk of a dotted sort key (already split on '.'). -/
def walkKey (v : TVal) (ks : List String) : Option TVal :=
  ks.foldl getSeg (some v)

/-- Python `<` on the values the comparator can meet: defined on two
ints or two strings; a mixed comparison raises `TypeError` in Python and
is outside the comparator's contract (modelled as `false`). -/
def pyLt : TVal → TVal → Bool
  | .tint a, .tint b => decide (a < b)
  | .tstr a, .tstr b => decide (a < b)
  | _, _ => false

/-- Embedding of the `_cmp` comparator of `TinyDB.get` (tiny.py, lines
131-148): for each (key, direction) pair, tie skips to the next key; a
`None` (or missing) value compares lower than anything; otherwise `<`
decides; direction `o` (1 ascending, −1 descending) signs the result. -/
def cmpRecs : List (List String × Int) → TVal → TVal → Int
  | [], _, _ => 0
  | (k, o) :: rest, v1, v2 =>
    if walkKey v1 k = walkKey v2 k then cmpRecs rest v1 v2
    else
      match walkKey v1 k, walkKey v2 k with
      | none, _ => -o
      | some _, none => o
      | some a, some b => if pyLt a b then -o else o

/-- `sorted(result, key=cmp_to_key(_cmp))` (tiny.py, line 149): a stable
sort by the comparator. -/
def sortRecords (srt : List (List String × Int)) (l : List TVal) :
    List TVal :=
  insSortBy (fun a b => decide (cmpRecs srt a b ≤ 0)) l

theorem cmpRecs_zero_symm :
    ∀ (srt : List (List String × Int)) (a b : TVal),
      cmpRecs srt a b = 0 → cmpRecs srt b a = 0 := by
  intro srt
  induction srt with
  | nil => intro a b _; rfl
  | cons ko rest ih =>
    obtain ⟨k, o⟩ := ko
    intro a b h
    by_cases he : walkKey a k = walkKey b k
    · rw [cmpRecs, if_pos he] at h
      rw [cmpRecs, if_pos he.symm]
      exact ih a b h
    · rw [cmpRecs, if_neg he] at h
      rw [cmpRecs, if_neg (Ne.symm he)]
      rcases h1 : walkKey a k with _ | x <;> rcases h2 : walkKey b k with _ | y
      · exact absurd (h1.trans h2.symm) he
      · rw [h1, h2] at h
        show o = 0
        have h' : -o = 0 := h
        omega
      · rw [h1, h2] at h
        show -o = 0
        have h' : o = 0 := h
        omega
      · rw [h1, h2] at h
        show (if pyLt y x = true then -o else o) = 0
        have h' : (if pyLt x y = true then -o else o) = 0 := h
        split <;> split at h' <;> omega

theorem insSortBy_stable {β : Type} (cmp : β → β → Int)
    (hsym : ∀ a b, cmp a b = 0 → cmp b a = 0) :
    ∀ (l : List (Nat × β)),
      List.Pairwise (fun p q => p.1 < q.1) l →
      List.Pairwise (fun p q => cmp p.2 q.2 = 0 → p.1 < q.1)
        (insSortBy (fun p q => decide (cmp p.2 q.2 ≤ 0)) l) := by
  intro l
  induction l with
  | nil => intro _; exact List.Pairwise.nil
  | cons x xs ih =>
    intro hl
    rcases List.pairwise_cons.1 hl with ⟨hx, hxs⟩
    rw [insSortBy]
    refine pairwise_insertSorted (ih hxs) ?_ ?_
    · intro y hy _
      exact hx y (mem_insSortBy hy)
    · intro y hy hle hcy
      rw [decide_eq_false_iff_not, not_le] at hle
      have := hsym _ _ hcy
      omega

theorem map_snd_insertSorted {β : Type} (le : β → β → Bool) (x : Nat × β) :
    ∀ (l : List (Nat × β)),
      (insertSorted (fun p q => le p.2 q.2) x l).map Prod.snd
        = insertSorted le x.2 (l.map Prod.snd) := by
  intro l
  induction l with
  | nil => rfl
  | cons y ys ih =>
    simp only [List.map_cons]
    rw [insertSorted, insertSorted]
    by_cases hle : le x.2 y.2
    · rw [if_pos hle, if_pos hle]
      rfl
    · rw [if_neg hle, if_neg hle]
      simp only [List.map_cons, List.map_cons] at ih ⊢
      rw [ih]

theorem map_snd_insSortBy {β : Type} (le : β → β → Bool) :
    ∀ (l : List (Nat × β)),
      (insSortBy (fun p q => le p.2 q.2) l).map Prod.snd
        = insSortBy le (l.map Prod.snd) := by
  intro l
  induction l with
  | nil => rfl
  | cons x xs ih =>
    rw [insSortBy, List.map_cons, insSortBy, ← ih]
    exact map_snd_insertSorted le x (insSortBy _ xs)

/-- C5: the multi-key comparator of `get` skips tied keys (so the first
key on which the records differ decides, independently of later keys); a
missing/None value compares strictly below any non-None value in
ascending direction (result −o: −1 ascending, +1 descending) and
symmetrically above it; records tying on every key compare 0; and the
stable sort keeps the original relative order of records whose
comparison is 0 (output tags of tied records stay increasing, and the
tagged sort projects to `sortRecords`). -/
theorem sort_comparator_spec :
    (∀ (k : List String) (o : Int) (rest : List (List String × Int))
        (v1 v2 : TVal),
        (walkKey v1 k = walkKey v2 k →
          cmpRecs ((k, o) :: rest) v1 v2 = cmpRecs rest v1 v2)
        ∧ (walkKey v1 k ≠ walkKey v2 k →
          cmpRecs ((k, o) :: rest) v1 v2 = cmpRecs [(k, o)] v1 v2))
    ∧ (∀ (k : List String) (o : Int) (rest : List (List String × Int))
        (v1 v2 : TVal) (w : TVal),
        walkKey v1 k = none → walkKey v2 k = some w →
        cmpRecs ((k, o) :: rest) v1 v2 = -o
          ∧ cmpRecs ((k, o) :: rest) v2 v1 = o)
    ∧ (∀ (srt : List (List String × Int)) (v1 v2 : TVal),
        (∀ ko ∈ srt, walkKey v1 ko.1 = walkKey v2 ko.1) →
        cmpRecs srt v1 v2 = 0)
    ∧ (∀ (srt : List (List String × Int)) (l : List (Nat × TVal)),
        List.Pairwise (fun p q => p.1 < q.1) l →
        List.Pairwise (fun p q => cmpRecs srt p.2 q.2 = 0 → p.1 < q.1)
          (insSortBy (fun p q => decide (cmpRecs srt p.2 q.2 ≤ 0)) l))
    ∧ (∀ (srt : List (List String × Int)) (l : List (Nat × TVal)),
        (insSortBy (fun p q => decide (cmpRecs srt p.2 q.2 ≤ 0)) l).map
            Prod.snd
          = sortRecords srt (l.map Prod.snd)) := by
  refine ⟨?_, ?_, ?_, ?_, ?_⟩
  · intro k o rest v1 v2
    constructor
    · intro he
      rw [cmpRecs, if_pos he]
    · intro he
      rw [cmpRecs, if_neg he, cmpRecs, if_neg he]
  · intro k o rest v1 v2 w h1 h2
    constructor
    · rw [cmpRecs, if_neg (by rw [h1, h2]; exact fun hc => by cases hc),
        h1, h2]
    · rw [cmpRecs, if_neg (by rw [h1, h2]; exact fun hc => by cases hc),
        h2, h1]
  · intro srt
    induction srt with
    | nil => intro v1 v2 _; rfl
    | cons ko rest ih =>
      intro v1 v2 h
      rw [cmpRecs]
      obtain ⟨k, o⟩ := ko
      rw [if_pos (h (k, o) (List.mem_cons_self _ rest))]
      exact ih v1 v2 (fun p hp => h p (List.mem_cons_of_mem _ hp))
  · intro srt
    exact insSortBy_stable (cmpRecs srt) (cmpRecs_zero_symm srt)
  · intro srt l
    rw [sortRecords]
    exact map_snd_insSortBy (fun a b => decide (cmpRecs srt a b ≤ 0)) l

/-- Witness for C5: a record lacking key "a" sorts before (ascending) /
after a record carrying a=5, and a concrete tagged tie keeps its order
through the stable sort. -/
theorem sort_comparator_spec_w :
    cmpRecs [(["a"], 1)] TVal.tonil
        (TVal.tocons "a" (TVal.tint 5) TVal.tonil) = -1
    ∧ cmpRecs [(["a"], 1)] (TVal.tocons "a" (TVal.tint 5) TVal.tonil)
        TVal.tonil = 1
    ∧ List.Pairwise (fun p q => cmpRecs [(["a"], 1)] p.2 q.2 = 0 → p.1 < q.1)
        (insSortBy (fun p q => decide (cmpRecs [(["a"], 1)] p.2 q.2 ≤ 0))
          [(0, TVal.tonil), (1, TVal.tonil)]) := by
  have h2 := sort_comparator_spec.2.1 ["a"] 1 [] TVal.tonil
    (TVal.tocons "a" (TVal.tint 5) TVal.tonil) (TVal.tint 5) rfl rfl
  have h4 := sort_comparator_spec.2.2.2.1 [(["a"], 1)]
    [(0, TVal.tonil), (1, TVal.tonil)]
    (List.pairwise_cons.2 ⟨by
        intro q hq
        rcases List.mem_singleton.1 hq with rfl
        exact Nat.zero_lt_one,
      List.pairwise_singleton _ _⟩)
  exact ⟨h2.1, h2.2, h4⟩

/-- A TinyDB document value as traversed by the path value extractor
`_generate_field_values` and the `exists` predicate builder
`_search_field_exists`: null, scalar, array (chain of elements) or
mapping (chain of key/value entries). -/
inductive DVal where
  | vnull
  | vint (n : Int)
  | vstr (s : String)
  | lnil
  | lcons (hd : DVal) (tl : DVal)
  | onil
  | ocons (k : String) (v : DVal) (rest : DVal)
deriving DecidableEq, Repr

/-- Presence-based mapping access: `field in record` is `isSome`, and
`record[field]` is the stored value (a stored null included).  On a
non-mapping there is no key. -/
def dictGet (k : String) : DVal → Option DVal
  | .ocons k' v rest => if k' = k then some v else dictGet k rest
  | _ => none

/-- The elements of an array value (a non-array has none: the TinyDB
evaluator only iterates sequences). -/
def elemsOf : DVal → List DVal
  | .lcons h t => h :: elemsOf t
  | _ => []

/-- A dotted path from its segments. -/
def joinDots (l : List String) : String := String.intercalate "." l

/-- Embedding of `TinyDB._generate_field_values` (tiny.py, lines
181-231): descend the pre-split dotted path, mapping over the elements
of every schema-declared array level; yield the values at the final
segment, paired with a weight when a count field or an inherited count
value is active.  A missing segment yields nothing.  (Traversal through
a non-mapping value yields nothing here; in Python such records are
outside the extractor's contract.) -/
def genFieldValues (schema : List String) :
    List String → List String → Option (List String) → Option DVal →
    DVal → List (DVal ⊕ DVal × DVal)
  | [], _, _, _, _ => []
  | [f], base, countfield, countval, record =>
    match dictGet f record with
    | none => []
    | some v =>
      let yield1 : DVal → (DVal ⊕ DVal × DVal) := fun x =>
        match countval with
        | some cv => Sum.inr (x, cv)
        | none =>
          match countfield with
          | some cf =>
            Sum.inr (x, (dictGet (joinDots cf) record).getD (DVal.vint 1))
          | none => Sum.inl x
      if joinDots (base ++ [f]) ∈ schema then (elemsOf v).map yield1
      else [yield1 v]
  | f :: rest, base, countfield, countval, record =>
    match dictGet f record with
    | none => []
    | some v =>
      let cfcv : Option (List String) × Option DVal :=
        match countfield with
        | none => (none, countval)
        | some cf =>
          match cf with
          | c :: cs =>
            if c = f ∧ cs ≠ [] then (some cs, countval)
            else
              (none, some ((dictGet (joinDots cf) record).getD (DVal.vint 1)))
          | [] =>
            (none, some ((dictGet (joinDots cf) record).getD (DVal.vint 1)))
      if joinDots (base ++ [f]) ∈ schema then
        (elemsOf v).flatMap
          (fun e => genFieldValues schema rest (base ++ [f]) cfcv.1 cfcv.2 e)
      else genFieldValues schema rest (base ++ [f]) cfcv.1 cfcv.2 v

/-- Whether a record has a dotted path: every segment present, arrays
(per the schema) traversed elementwise.  An ill-typed intermediate value
(a scalar where a mapping is needed, or a non-array at a declared array
level) counts as present — only a genuinely absent segment makes a
record "lack" the path. -/
def hasPath (schema : List String) :
    List String → List String → DVal → Bool
  | [], _, _ => true
  | [f], _, record => (dictGet f record).isSome
  | f :: rest, base, record =>
    match dictGet f record with
    | none => false
    | some v =>
      if joinDots (base ++ [f]) ∈ schema then
        match v with
        | .lnil | .lcons _ _ =>
          (elemsOf v).any (fun e => hasPath schema rest (base ++ [f]) e)
        | _ => true
      else
        match v with
        | .onil | .ocons _ _ _ => hasPath schema rest (base ++ [f]) v
        | .lnil | .lcons _ _ => false
        | _ => true

/-- TinyDB path resolution from a document root: each segment a mapping
access; failure anywhere resolves to nothing. -/
def walkOpt : DVal → List String → Option DVal
  | r, [] => some r
  | r, k :: ks =>
    match dictGet k r with
    | none => none
    | some v => walkOpt v ks

/-- Embedding of `TinyDB._search_field_exists` (tiny.py, lines 233-248),
evaluated on a record: the built query is `baseq.f.exists()` for the
last segment, `baseq.f.any(sub)` at a schema array level (the
sub-predicate evaluated on each element from a fresh root), and the
accumulated `getattr` path otherwise. -/
def evalFieldExists (schema : List String) :
    List String → List String → List String → DVal → Bool
  | [], _, _, _ => false
  | [f], _, baseq, r => (walkOpt r (baseq ++ [f])).isSome
  | f :: rest, base, baseq, r =>
    if joinDots (base ++ [f]) ∈ schema then
      match walkOpt r (baseq ++ [f]) with
      | some v =>
        (elemsOf v).any
          (fun e => evalFieldExists schema rest (base ++ [f]) [] e)
      | none => false
    else evalFieldExists schema rest (base ++ [f]) (baseq ++ [f]) r

theorem walkOpt_single (f : String) (r : DVal) :
    walkOpt r [f] = dictGet f r := by
  rw [walkOpt]
  rcases dictGet f r with _ | v
  · rfl
  · rfl

theorem walkOpt_append :
    ∀ (u : List String) (r : DVal) (v : List String),
      walkOpt r (u ++ v) = (walkOpt r u).bind (fun x => walkOpt x v) := by
  intro u
  induction u with
  | nil => intro r v; rfl
  | cons k ks ih =>
    intro r v
    rw [List.cons_append, walkOpt, walkOpt]
    rcases dictGet k r with _ | x
    · rfl
    · exact ih x v

theorem evalFieldExists_dead (schema : List String) :
    ∀ (field base bq : List String) (r₀ : DVal),
      walkOpt r₀ bq = none →
      evalFieldExists schema field base bq r₀ = false := by
  intro field
  induction field with
  | nil => intro base bq r₀ _; rfl
  | cons f rest ih =>
    intro base bq r₀ hw
    cases rest with
    | nil =>
      rw [evalFieldExists, walkOpt_append, hw]
      rfl
    | cons g t =>
      simp only [evalFieldExists]
      split
      · rw [walkOpt_append, hw]
        rfl
      · exact ih (base ++ [f]) (bq ++ [f]) r₀
          (by rw [walkOpt_append, hw]; rfl)

theorem genFieldValues_nonmapping (schema : List String) :
    ∀ (field base : List String) (cf : Option (List String))
      (cv : Option DVal) (r : DVal),
      field ≠ [] → (∀ k, dictGet k r = none) →
      genFieldValues schema field base cf cv r = [] := by
  intro field base cf cv r hne hnd
  cases field with
  | nil => exact absurd rfl hne
  | cons f rest =>
    cases rest with
    | nil => simp only [genFieldValues, hnd f]
    | cons g t => simp only [genFieldValues, hnd f]

theorem dictGet_list (k : String) {r : DVal}
    (h : r = DVal.lnil ∨ ∃ a b, r = DVal.lcons a b) : dictGet k r = none := by
  rcases h with rfl | ⟨a, b, rfl⟩
  · rfl
  · rfl

theorem hasPath_list (schema : List String) {r : DVal}
    (h : r = DVal.lnil ∨ ∃ a b, r = DVal.lcons a b) :
    ∀ (field base : List String), field ≠ [] →
      hasPath schema field base r = false := by
  intro field base hne
  cases field with
  | nil => exact absurd rfl hne
  | cons f rest =>
    cases rest with
    | nil =>
      simp only [hasPath, dictGet_list f h]
      rfl
    | cons g t =>
      simp only [hasPath, dictGet_list f h]

theorem missing_path_aux (schema : List String) :
    ∀ (field : List String) (base : List String) (r : DVal),
      hasPath schema field base r = false →
      (∀ (cf : Option (List String)) (cv : Option DVal),
        genFieldValues schema field base cf cv r = [])
      ∧ (∀ (bq : List String) (r₀ : DVal), walkOpt r₀ bq = some r →
          evalFieldExists schema field base bq r₀ = false) := by
  intro field
  induction field with
  | nil =>
    intro base r h
    simp [hasPath] at h
  | cons f rest ih =>
    intro base r h
    cases rest with
    | nil =>
      have hd : dictGet f r = none := by
        rcases hdd : dictGet f r with _ | v
        · rfl
        · rw [hasPath, hdd] at h
          simp at h
      constructor
      · intro cf cv
        simp only [genFieldValues, hd]
      · intro bq r₀ hw
        simp only [evalFieldExists]
        rw [walkOpt_append, hw, Option.some_bind, walkOpt_single, hd]
        rfl
    | cons g t =>
      rcases hdd : dictGet f r with _ | v
      · constructor
        · intro cf cv
          simp only [genFieldValues, hdd]
        · intro bq r₀ hw
          have hwn : walkOpt r₀ (bq ++ [f]) = none := by
            rw [walkOpt_append, hw, Option.some_bind, walkOpt_single, hdd]
          simp only [evalFieldExists]
          split
          · rw [hwn]
          · exact evalFieldExists_dead schema (g :: t) (base ++ [f])
              (bq ++ [f]) r₀ hwn
      · have hwv : ∀ (bq : List String) (r₀ : DVal), walkOpt r₀ bq = some r →
            walkOpt r₀ (bq ++ [f]) = some v := by
          intro bq r₀ hw
          rw [walkOpt_append, hw, Option.some_bind, walkOpt_single, hdd]
        simp only [hasPath, hdd] at h
        by_cases hs : joinDots (base ++ [f]) ∈ schema
        · rw [if_pos hs] at h
          cases v with
          | lnil =>
            constructor
            · intro cf cv
              simp only [genFieldValues, hdd, if_pos hs]
              rfl
            · intro bq r₀ hw
              simp only [evalFieldExists, if_pos hs, hwv bq r₀ hw]
              rfl
          | lcons a b =>
            have hall : ∀ e ∈ elemsOf (DVal.lcons a b),
                hasPath schema (g :: t) (base ++ [f]) e = false := by
              intro e he
              have h' := List.any_eq_false.1 h e he
              simpa using h'
            constructor
            · intro cf cv
              simp only [genFieldValues, hdd, if_pos hs]
              rw [List.flatMap_eq_nil_iff]
              intro e he
              exact (ih (base ++ [f]) e (hall e he)).1 _ _
            · intro bq r₀ hw
              simp only [evalFieldExists, if_pos hs, hwv bq r₀ hw]
              rw [List.any_eq_false]
              intro e he
              rw [(ih (base ++ [f]) e (hall e he)).2 [] e rfl]
              simp
          | vnull => simp at h
          | vint n => simp at h
          | vstr s => simp at h
          | onil => simp at h
          | ocons k' v' rest' => simp at h
        · rw [if_neg hs] at h
          cases v with
          | onil =>
            constructor
            · intro cf cv
              simp only [genFieldValues, hdd, if_neg hs]
              exact (ih (base ++ [f]) DVal.onil h).1 _ _
            · intro bq r₀ hw
              simp only [evalFieldExists, if_neg hs]
              exact (ih (base ++ [f]) DVal.onil h).2 (bq ++ [f]) r₀
                (hwv bq r₀ hw)
          | ocons k' v' rest' =>
            constructor
            · intro cf cv
              simp only [genFieldValues, hdd, if_neg hs]
              exact (ih (base ++ [f]) _ h).1 _ _
            · intro bq r₀ hw
              simp only [evalFieldExists, if_neg hs]
              exact (ih (base ++ [f]) _ h).2 (bq ++ [f]) r₀ (hwv bq r₀ hw)
          | lnil =>
            have hfalse := hasPath_list schema (Or.inl rfl) (g :: t)
              (base ++ [f]) (by simp)
            constructor
            · intro cf cv
              simp only [genFieldValues, hdd, if_neg hs]
              exact (ih (base ++ [f]) DVal.lnil hfalse).1 _ _
            · intro bq r₀ hw
              simp only [evalFieldExists, if_neg hs]
              exact (ih (base ++ [f]) DVal.lnil hfalse).2 (bq ++ [f]) r₀
                (hwv bq r₀ hw)
          | lcons a b =>
            have hfalse := hasPath_list schema (Or.inr ⟨a, b, rfl⟩) (g :: t)
              (base ++ [f]) (by simp)
            constructor
            · intro cf cv
              simp only [genFieldValues, hdd, if_neg hs]
              exact (ih (base ++ [f]) _ hfalse).1 _ _
            · intro bq r₀ hw
              simp only [evalFieldExists, if_neg hs]
              exact (ih (base ++ [f]) _ hfalse).2 (bq ++ [f]) r₀
                (hwv bq r₀ hw)
          | vnull => simp at h
          | vint n => simp at h
          | vstr s => simp at h

/-- C7: a record lacking a dotted path (some intermediate or final
segment absent) makes the field-value extractor yield the empty
sequence — not an error — and makes the field-exists predicate built
for that path evaluate to false on the record. -/
theorem missing_path_empty :
    ∀ (schema : List String) (field : List String) (r : DVal),
      hasPath schema field [] r = false →
      genFieldValues schema field [] none none r = []
      ∧ evalFieldExists schema field [] [] r = false := by
  intro schema field r h
  obtain ⟨h1, h2⟩ := missing_path_aux schema field [] r h
  exact ⟨h1 none none, h2 [] r rfl⟩

/-- Witness for C7: an empty record lacks "ports.port"; the extractor
yields nothing and the exists predicate is false. -/
theorem missing_path_empty_w :
    genFieldValues ["ports"] ["ports", "port"] [] none none DVal.onil = []
    ∧ evalFieldExists ["ports"] ["ports", "port"] [] [] DVal.onil = false :=
  missing_path_empty ["ports"] ["ports", "port"] DVal.onil rfl
